import Mathlib

/-!
Verification of the thread data-access layer of the Roar repository
(`src/lib/actions/thread.actions.ts` together with the Thread mongoose
schema).  The document store (MongoDB via mongoose) is embedded as lists
of documents; each server action becomes a pure function on a `DB`
state.  Thrown JavaScript `Error` values are embedded as `Except String`
results carrying the error message.
-/

namespace Roar

/-- A Thread document, following `threadSchema` in the Thread model:
`text` (required), `author` (required ref to User), `community`
(optional ref), `createdAt` (defaulted on creation), `parentId`
(optional plain string), `children` (array of Thread refs). -/
structure Thread where
  id : String
  text : String
  author : String
  community : Option String
  createdAt : Nat
  parentId : Option String
  children : List String
deriving Repr, DecidableEq

/-- Modelled from the spec: the User model file is not part of the
sources; §3 of the spec says a User holds `threads`, the list of Thread
ids it authored, and the populate calls in `thread.actions.ts` select
its `_id`, `name` and `image` fields. -/
structure User where
  id : String
  name : String
  image : String
  threads : List String
deriving Repr, DecidableEq

/-- Modelled from the spec: the Community model file is not part of the
sources; §3 of the spec says a Community holds `threads`, the list of
Thread ids posted into it; `createThread` looks communities up by their
external-facing `id` field (here `eid`), distinct from the storage id. -/
structure Community where
  id : String
  eid : String
  name : String
  image : String
  threads : List String
deriving Repr, DecidableEq

/-- The three collections the actions operate on. -/
structure DB where
  threads : List Thread
  users : List User
  communities : List Community
deriving Repr, DecidableEq

/-! ### Store primitives (mongoose collaborator, §6 of the spec) -/

/-- `Model.findById(id)`: the first document with the given storage id,
or `null`. -/
def findThread (ts : List Thread) (tid : String) : Option Thread :=
  ts.find? (fun t => decide (t.id = tid))

/-- `User.findById` / populate target lookup. -/
def findUser (us : List User) (uid : String) : Option User :=
  us.find? (fun u => decide (u.id = uid))

/-- Community lookup by storage id. -/
def findCommunity (cs : List Community) (cid : String) : Option Community :=
  cs.find? (fun c => decide (c.id = cid))

/-! ### Populated views

`populate` resolves id references into embedded sub-documents.  The
nesting depth of the views below is exactly the depth of the `populate`
specifications in the source: anything deeper stays a raw id. -/

/-- Projection of a populated `author` (select `_id id name image`,
resp. `_id name parentId image`; both select the id, name and image
fields of the User). -/
structure AuthorView where
  id : String
  name : String
  image : String
deriving Repr, DecidableEq

/-- Projection of a populated `community` (select `_id id name image`). -/
structure CommunityView where
  id : String
  name : String
  image : String
deriving Repr, DecidableEq

/-- Resolve a user id to its author projection; a missing user resolves
to `null`, as mongoose populate does. -/
def authorView (db : DB) (uid : String) : Option AuthorView :=
  (findUser db.users uid).map (fun u => { id := u.id, name := u.name, image := u.image })

/-- Resolve a community id to its projection. -/
def communityView (db : DB) (cid : String) : Option CommunityView :=
  (findCommunity db.communities cid).map (fun c => { id := c.id, name := c.name, image := c.image })

/-- A child thread populated one level: its `author` is resolved, its
own `children` stay raw id references. -/
structure ChildDepth1 where
  id : String
  text : String
  author : Option AuthorView
  community : Option String
  createdAt : Nat
  parentId : Option String
  children : List String
deriving Repr, DecidableEq

/-- A child thread populated two levels: its `author` is resolved, and
each of its children is resolved one further level (`ChildDepth1`). -/
structure ChildDepth2 where
  id : String
  text : String
  author : Option AuthorView
  community : Option String
  createdAt : Nat
  parentId : Option String
  children : List ChildDepth1
deriving Repr, DecidableEq

/-- Resolve one child reference one level deep (innermost populate of
`fetchThreadById`, and the `children` populate of `fetchPosts`):
the child document with its author resolved; its `children` field is
passed through as raw ids.  Missing references are dropped from
populated arrays. -/
def childDepth1 (db : DB) (cid : String) : Option ChildDepth1 :=
  (findThread db.threads cid).map (fun t =>
    { id := t.id, text := t.text, author := authorView db t.author,
      community := t.community, createdAt := t.createdAt,
      parentId := t.parentId, children := t.children })

/-- Resolve one child reference two levels deep (the `children`
populate of `fetchThreadById`): author resolved, and each grandchild
resolved via `childDepth1`. -/
def childDepth2 (db : DB) (cid : String) : Option ChildDepth2 :=
  (findThread db.threads cid).map (fun t =>
    { id := t.id, text := t.text, author := authorView db t.author,
      community := t.community, createdAt := t.createdAt,
      parentId := t.parentId,
      children := t.children.filterMap (childDepth1 db) })

/-- The thread returned by `fetchThreadById`: author and community
resolved, children resolved two levels deep. -/
structure PopulatedThread where
  id : String
  text : String
  author : Option AuthorView
  community : Option CommunityView
  createdAt : Nat
  parentId : Option String
  children : List ChildDepth2
deriving Repr, DecidableEq

/-- A top-level post as returned by `fetchPosts`: author and community
populated (full documents — no `select` is given for them), children
populated one level with their authors. -/
structure PostView where
  id : String
  text : String
  author : Option User
  community : Option Community
  createdAt : Nat
  parentId : Option String
  children : List ChildDepth1
deriving Repr, DecidableEq

/-! ### `fetchThreadById` (lines 166–217) -/

/-- `fetchThreadById`: `Thread.findById(threadId)` with author,
community and two levels of children populated.  There is no
not-found check: a missing id yields a successful `null` result.
The surrounding try/catch only fires on store failures (modelled by
`fetchThreadByIdWithFailingStore` below). -/
def fetchThreadById (db : DB) (threadId : String) : Except String (Option PopulatedThread) :=
  Except.ok ((findThread db.threads threadId).map (fun t =>
    { id := t.id, text := t.text, author := authorView db t.author,
      community := t.community.bind (communityView db),
      createdAt := t.createdAt, parentId := t.parentId,
      children := t.children.filterMap (childDepth2 db) }))

/-! ### `fetchPosts` (lines 11–52) -/

/-- The store's `.sort({ createdAt: "desc" })`, embedded as an
insertion sort by descending `createdAt`. -/
def insertCreatedAtDesc (t : Thread) : List Thread → List Thread
  | [] => [t]
  | u :: us => if t.createdAt ≤ u.createdAt then u :: insertCreatedAtDesc t us else t :: u :: us

/-- Sort a list of threads by descending `createdAt`. -/
def sortCreatedAtDesc (ts : List Thread) : List Thread :=
  ts.foldr insertCreatedAtDesc []

/-- `fetchPosts(pageNumber, pageSize)`: top-level threads
(`parentId ∈ [null, undefined]`) sorted by `createdAt` descending,
skipping `(pageNumber-1)*pageSize` and limiting to `pageSize`,
each populated; `isNext = totalPostsCount > skipAmount + posts.length`.
No try/catch: store failures propagate to the caller unchanged. -/
def fetchPosts (pageNumber pageSize : Nat) (db : DB) : List PostView × Bool :=
  let skipAmount := (pageNumber - 1) * pageSize
  let topLevel := db.threads.filter (fun t => decide (t.parentId = none))
  let posts := ((sortCreatedAtDesc topLevel).drop skipAmount).take pageSize
  let totalPostsCount := topLevel.length
  (posts.map (fun t =>
      { id := t.id, text := t.text,
        author := findUser db.users t.author,
        community := t.community.bind (findCommunity db.communities),
        createdAt := t.createdAt, parentId := t.parentId,
        children := t.children.filterMap (childDepth1 db) }),
   decide (totalPostsCount > skipAmount + posts.length))

/-! ### `createThread` (lines 63–96) -/

/-- `createThread({text, author, communityId, path})`.  The community
is resolved by its external `id` field (`Community.findOne({id:
communityId})`); the new thread is inserted with no `parentId` and the
schema defaults (`children = []`, `createdAt = now`); the new id is
pushed onto the author's `threads` and, when a community was resolved,
onto that community's `threads`.  The store-assigned id and timestamp
are passed in as `newId` and `now`.  Nothing in this path throws, so
the try/catch is only exercised by store failures
(`createThreadWithFailingStore`). -/
def createThread (text author : String) (communityId : Option String)
    (newId : String) (now : Nat) (db : DB) : DB :=
  let communityIdObject := db.communities.find? (fun c => decide (some c.eid = communityId))
  let createdThread : Thread :=
    { id := newId, text := text, author := author,
      community := communityIdObject.map (fun c => c.id),
      createdAt := now, parentId := none, children := [] }
  let threadsAfter := db.threads ++ [createdThread]
  let usersAfter := db.users.map (fun u =>
    if u.id = author then { u with threads := u.threads ++ [newId] } else u)
  let communitiesAfter :=
    match communityIdObject with
    | none => db.communities
    | some cobj => db.communities.map (fun c =>
        if c.id = cobj.id then { c with threads := c.threads ++ [newId] } else c)
  { threads := threadsAfter, users := usersAfter, communities := communitiesAfter }

/-! ### `addCommentToThread` (lines 230–267) -/

/-- `addCommentToThread(threadId, commentText, userId, path)`.  When
the parent is absent the code throws `Error("Thread not found")`,
which the surrounding catch swallows and re-signals as
`Error("Unable to add comment")` — that re-signalled message is what
the caller observes.  Otherwise a new Thread with `parentId =
threadId` is saved and its id pushed onto the parent's `children`. -/
def addCommentToThread (threadId commentText userId : String)
    (newId : String) (now : Nat) (db : DB) : Except String DB :=
  match db.threads.find? (fun t => decide (t.id = threadId)) with
  | none => Except.error "Unable to add comment"
  | some originalThread =>
    let commentThread : Thread :=
      { id := newId, text := commentText, author := userId,
        community := none, createdAt := now,
        parentId := some threadId, children := [] }
    let threadsAfterSave := db.threads ++ [commentThread]
    let updatedOriginal :=
      { originalThread with children := originalThread.children ++ [newId] }
    Except.ok { db with threads :=
      threadsAfterSave.map (fun t => if t.id = originalThread.id then updatedOriginal else t) }

/-! ### `fetchAllChildThreads` (lines 98–108) and `deleteThread` (110–164) -/

/-- The recursive descendant enumeration, with an explicit fuel
argument standing for the recursion depth still available: the source
recursion (`Thread.find({parentId: threadId})`, then recurse on each
child, accumulating child-before-its-descendants) has no structural
termination measure of its own and would diverge on a cyclic store. -/
def fetchAllChildThreadsF (db : List Thread) : Nat → String → List Thread
  | 0, _ => []
  | fuel + 1, threadId =>
    (db.filter (fun t => decide (t.parentId = some threadId))).flatMap
      (fun childThread => childThread :: fetchAllChildThreadsF db fuel childThread.id)

/-- `fetchAllChildThreads(threadId)`: run the recursion with enough
fuel for any acyclic store (`db.length` bounds every parent chain). -/
def fetchAllChildThreads (db : List Thread) (threadId : String) : List Thread :=
  fetchAllChildThreadsF db db.length threadId

/-- `deleteThread(id, path)`.  Loads the main thread (wrapped
`NotFound` if absent), enumerates all descendants, deletes the whole
id set from the Thread store in one `deleteMany`, and `$pull`s every
deleted id from the `threads` lists of the users in the collected
author-id set and the communities in the collected community-id set. -/
def deleteThread (id : String) (db : DB) : Except String DB :=
  match db.threads.find? (fun t => decide (t.id = id)) with
  | none => Except.error ("Failed to delete thread: " ++ "Thread not found")
  | some mainThread =>
    let descendantThreads := fetchAllChildThreads db.threads id
    let descendantThreadIds := id :: descendantThreads.map (fun t => t.id)
    let uniqueAuthorIds :=
      (descendantThreads.map (fun t => t.author) ++ [mainThread.author]).dedup
    let uniqueCommunityIds :=
      ((descendantThreads.map (fun t => t.community) ++ [mainThread.community]).filterMap (fun o => o)).dedup
    let threadsAfter := db.threads.filter (fun t => decide (t.id ∉ descendantThreadIds))
    let usersAfter := db.users.map (fun u =>
      if u.id ∈ uniqueAuthorIds then
        { u with threads := u.threads.filter (fun x => decide (x ∉ descendantThreadIds)) }
      else u)
    let communitiesAfter := db.communities.map (fun c =>
      if c.id ∈ uniqueCommunityIds then
        { c with threads := c.threads.filter (fun x => decide (x ∉ descendantThreadIds)) }
      else c)
    Except.ok { threads := threadsAfter, users := usersAfter, communities := communitiesAfter }

/-! ### Store-failure behaviour of each operation (§7 of the spec)

An underlying store failure is a thrown `Error` with some message
`msg`; it aborts the body of the operation at the failing call.  The
functions below record what the caller of each operation observes in
that case: exactly the handler of the operation's try/catch applied to
the failure (or, for `fetchPosts`, the failure itself — it has no
try/catch). -/

/-- JS `try { body } catch (e) { handler e }` on an aborted body. -/
def tryCatch (body : Except String α) (handler : String → Except String α) : Except String α :=
  match body with
  | Except.ok a => Except.ok a
  | Except.error e => handler e

/-- `createThread` on a store failure: the catch re-throws
`Failed to create post: ${error.message}`. -/
def createThreadWithFailingStore (msg : String) : Except String DB :=
  tryCatch (Except.error msg) (fun e => Except.error ("Failed to create post: " ++ e))

/-- `deleteThread` on a store failure: the catch re-throws
`Failed to delete thread: ${error.message}`. -/
def deleteThreadWithFailingStore (msg : String) : Except String DB :=
  tryCatch (Except.error msg) (fun e => Except.error ("Failed to delete thread: " ++ e))

/-- `fetchThreadById` on a store failure: the catch logs the error and
throws the fixed message `Unable to fetch thread`, dropping the cause. -/
def fetchThreadByIdWithFailingStore (msg : String) : Except String (Option PopulatedThread) :=
  tryCatch (Except.error msg) (fun _ => Except.error "Unable to fetch thread")

/-- `addCommentToThread` on a store failure: the catch logs the error
and throws the fixed message `Unable to add comment`, dropping the
cause. -/
def addCommentWithFailingStore (msg : String) : Except String DB :=
  tryCatch (Except.error msg) (fun _ => Except.error "Unable to add comment")

/-- `fetchPosts` on a store failure: there is no try/catch in
`fetchPosts`, so the underlying failure propagates to the caller
unchanged. -/
def fetchPostsWithFailingStore (msg : String) : Except String (List PostView × Bool) :=
  Except.error msg

/-! ### The descendant relation (specification side)

`Desc db root t` holds when thread `t` lies strictly inside the
subtree rooted at the thread id `root`: it is a stored thread whose
`parentId` chain leads to `root`.  It is phrased root-outward (a
descendant is a child, or a descendant of a child), which is
equivalent to following `parentId` links from `t` toward `root`. -/

/-- `t` is a proper transitive descendant of the thread id `root`. -/
inductive Desc (db : List Thread) : String → Thread → Prop
  | child (root : String) (t : Thread) (ht : t ∈ db) (hp : t.parentId = some root) :
      Desc db root t
  | nest (root : String) (c t : Thread) (hc : c ∈ db) (hp : c.parentId = some root)
      (hd : Desc db c.id t) : Desc db root t

/-- Forest hypothesis (§3 of the spec: "the parent/child relation
forms a forest — no cycles"): some rank function strictly increases
across every stored `parentId` link. -/
abbrev RankOk (rank : String → Nat) (db : List Thread) : Prop :=
  ∀ c ∈ db, ∀ pid ∈ c.parentId.toList, rank pid < rank c.id

/-- Number of stored threads ranked strictly above `x`; it bounds the
recursion depth the enumeration can still need below `x`. -/
def rankBound (rank : String → Nat) (db : List Thread) (x : String) : Nat :=
  (db.filter (fun t => decide (rank x < rank t.id))).length

/-- The id set removed by `deleteThread tgt`: the target id and the
ids of all of its transitive descendants. -/
def DeletedId (db : List Thread) (tgt : String) (x : String) : Prop :=
  x = tgt ∨ ∃ t, t ∈ db ∧ t.id = x ∧ Desc db tgt t

/-! ### Witness fixtures and batch harness -/

/-- Witness fixture: a four-level chain a ← b ← c ← e plus a second
child d of a (`x ← y` meaning y's parentId is x). -/
def wThreads : List Thread :=
  [ { id := "a", text := "root", author := "u1", community := none,
      createdAt := 1, parentId := none, children := ["b", "d"] },
    { id := "b", text := "reply", author := "u1", community := some "co1",
      createdAt := 2, parentId := some "a", children := ["c"] },
    { id := "c", text := "deep reply", author := "u2", community := none,
      createdAt := 3, parentId := some "b", children := ["e"] },
    { id := "d", text := "other reply", author := "u2", community := none,
      createdAt := 4, parentId := some "a", children := [] },
    { id := "e", text := "deepest reply", author := "u2", community := none,
      createdAt := 5, parentId := some "c", children := [] } ]

/-- Witness rank function for `wThreads`: depth in the tree. -/
def wRank : String → Nat :=
  fun s => if s = "a" then 0 else if s = "b" then 1 else if s = "d" then 1
    else if s = "c" then 2 else 3

/-- Witness users for `wThreads` (back-references consistent; `z` is a
dangling id that must survive deletions untouched). -/
def wUsers : List User :=
  [ { id := "u1", name := "Alice", image := "img1", threads := ["a", "b"] },
    { id := "u2", name := "Bob", image := "img2", threads := ["c", "d", "z"] } ]

/-- Witness communities for `wThreads`. -/
def wCommunities : List Community :=
  [ { id := "co1", eid := "ext1", name := "Lean fans", image := "imgc", threads := ["b", "z"] } ]

/-- Witness database. -/
def wDB : DB :=
  { threads := wThreads, users := wUsers, communities := wCommunities }

/-- Fold a batch of `addCommentToThread` calls — each triple is
(comment text, author id, store-assigned id) — against the same parent
thread, stopping at the first failure. -/
def applyComments (postId : String) (now : Nat) :
    List (String × String × String) → DB → Except String DB
  | [], db => Except.ok db
  | (text, uid, nid) :: rest, db =>
    match addCommentToThread postId text uid nid now db with
    | Except.ok dbNext => applyComments postId now rest dbNext
    | Except.error e => Except.error e

/-- Feed fixture: exactly 25 top-level posts (`p01` newest … `p25`
oldest by `createdAt`), stored in shuffled order, plus one comment
(`q01`) that the top-level filter must exclude. -/
def feedThreads : List Thread :=
  [
    { id := "p14", text := "post 14", author := "u1", community := none,
      createdAt := 86, parentId := none, children := [] },
    { id := "p20", text := "post 20", author := "u1", community := none,
      createdAt := 80, parentId := none, children := [] },
    { id := "p06", text := "post 6", author := "u1", community := none,
      createdAt := 94, parentId := none, children := [] },
    { id := "p23", text := "post 23", author := "u1", community := none,
      createdAt := 77, parentId := none, children := [] },
    { id := "p24", text := "post 24", author := "u1", community := none,
      createdAt := 76, parentId := none, children := [] },
    { id := "p17", text := "post 17", author := "u1", community := none,
      createdAt := 83, parentId := none, children := [] },
    { id := "p08", text := "post 8", author := "u1", community := none,
      createdAt := 92, parentId := none, children := [] },
    { id := "p25", text := "post 25", author := "u1", community := none,
      createdAt := 75, parentId := none, children := [] },
    { id := "p10", text := "post 10", author := "u1", community := none,
      createdAt := 90, parentId := none, children := [] },
    { id := "p07", text := "post 7", author := "u1", community := none,
      createdAt := 93, parentId := none, children := [] },
    { id := "p16", text := "post 16", author := "u1", community := none,
      createdAt := 84, parentId := none, children := [] },
    { id := "p01", text := "post 1", author := "u1", community := none,
      createdAt := 99, parentId := none, children := [] },
    { id := "p19", text := "post 19", author := "u1", community := none,
      createdAt := 81, parentId := none, children := [] },
    { id := "p09", text := "post 9", author := "u1", community := none,
      createdAt := 91, parentId := none, children := [] },
    { id := "p15", text := "post 15", author := "u1", community := none,
      createdAt := 85, parentId := none, children := [] },
    { id := "p22", text := "post 22", author := "u1", community := none,
      createdAt := 78, parentId := none, children := [] },
    { id := "p12", text := "post 12", author := "u1", community := none,
      createdAt := 88, parentId := none, children := [] },
    { id := "p04", text := "post 4", author := "u1", community := none,
      createdAt := 96, parentId := none, children := [] },
    { id := "p18", text := "post 18", author := "u1", community := none,
      createdAt := 82, parentId := none, children := [] },
    { id := "p03", text := "post 3", author := "u1", community := none,
      createdAt := 97, parentId := none, children := [] },
    { id := "p02", text := "post 2", author := "u1", community := none,
      createdAt := 98, parentId := none, children := [] },
    { id := "p21", text := "post 21", author := "u1", community := none,
      createdAt := 79, parentId := none, children := [] },
    { id := "p13", text := "post 13", author := "u1", community := none,
      createdAt := 87, parentId := none, children := [] },
    { id := "p05", text := "post 5", author := "u1", community := none,
      createdAt := 95, parentId := none, children := [] },
    { id := "p11", text := "post 11", author := "u1", community := none,
      createdAt := 89, parentId := none, children := [] },
    { id := "q01", text := "a comment", author := "u2", community := none,
      createdAt := 99, parentId := some "p01", children := [] } ]

/-- Feed database. -/
def feedDB : DB :=
  { threads := feedThreads, users := [], communities := [] }

end Roar

/-! ## Lemmas -/

namespace Roar

theorem id_inj {db : List Thread} (hnodup : (db.map (fun t => t.id)).Nodup)
    {a b : Thread} (ha : a ∈ db) (hb : b ∈ db) (h : a.id = b.id) : a = b :=
  List.inj_on_of_nodup_map hnodup ha hb h

theorem mem_of_desc {db : List Thread} {root : String} {t : Thread}
    (h : Desc db root t) : t ∈ db := by
  induction h with
  | child _ _ ht _ => exact ht
  | nest _ _ _ _ _ _ ih => exact ih

theorem desc_parent_some {db : List Thread} {root : String} {t : Thread}
    (h : Desc db root t) : ∃ pid, t.parentId = some pid := by
  induction h with
  | child _ t _ hp => exact ⟨_, hp⟩
  | nest _ _ _ _ _ _ ih => exact ih

theorem rank_lt_of_desc {rank : String → Nat} {db : List Thread}
    (hrank : RankOk rank db) {root : String} {t : Thread} (h : Desc db root t) :
    rank root < rank t.id := by
  induction h with
  | child r a ha hp => exact hrank a ha r (by simp [hp])
  | nest r c a hc hp _ ih =>
    have h1 : rank r < rank c.id := hrank c hc r (by simp [hp])
    omega

theorem desc_trans {db : List Thread} {root : String} {x t : Thread}
    (h1 : Desc db root x) (h2 : Desc db x.id t) : Desc db root t := by
  induction h1 with
  | child r a ha hp => exact Desc.nest r a t ha hp h2
  | nest r c _ hc hp _ ih => exact Desc.nest r c t hc hp (ih h2)

theorem parent_of_desc {db : List Thread} {root : String} {t : Thread}
    (h : Desc db root t) : ∀ pid, t.parentId = some pid →
      pid = root ∨ ∃ w, w ∈ db ∧ w.id = pid ∧ Desc db root w := by
  induction h with
  | child r a _ hp =>
    intro pid hpid
    left
    rw [hp] at hpid
    exact (Option.some_inj.mp hpid).symm
  | nest r c a hc hp _ ih =>
    intro pid hpid
    rcases ih pid hpid with h1 | ⟨w, hw, hwid, hdw⟩
    · exact Or.inr ⟨c, hc, h1.symm, Desc.child r c hc hp⟩
    · exact Or.inr ⟨w, hw, hwid, Desc.nest r c w hc hp hdw⟩

/-- A thread cannot be a descendant of its own sibling (both attached
to the same parent id `x`). -/
theorem not_desc_of_sibling {rank : String → Nat} {db : List Thread}
    (hrank : RankOk rank db) {x : String} {c1 c2 : Thread} (hc2 : c2 ∈ db)
    (hp1 : c1.parentId = some x) (hp2 : c2.parentId = some x)
    (h : Desc db c2.id c1) : False := by
  rcases parent_of_desc h x hp1 with h1 | ⟨w, hw, hwid, hdw⟩
  · rw [h1] at hp2
    exact absurd (hrank c2 hc2 c2.id (by simp [hp2])) (lt_irrefl _)
  · have hx1 : rank c2.id < rank w.id := rank_lt_of_desc hrank hdw
    have hx2 : rank w.id < rank c2.id := hrank c2 hc2 w.id (by simp [hp2, hwid])
    omega

/-- Subtrees hanging off two distinct siblings are disjoint: no thread
is a descendant of both. -/
theorem desc_not_in_two_branches {rank : String → Nat} {db : List Thread}
    (hrank : RankOk rank db) (hnodup : (db.map (fun t => t.id)).Nodup)
    {x : String} {c1 c2 : Thread} (hc1 : c1 ∈ db) (hc2 : c2 ∈ db)
    (hp1 : c1.parentId = some x) (hp2 : c2.parentId = some x) (hne : c1 ≠ c2) :
    ∀ t, Desc db c1.id t → Desc db c2.id t → False := by
  suffices H : ∀ n t, rank t.id < n → Desc db c1.id t → Desc db c2.id t → False by
    intro t h1 h2
    exact H (rank t.id + 1) t (Nat.lt_succ_self _) h1 h2
  intro n
  induction n with
  | zero => intro t ht; omega
  | succ n ih =>
    intro t htn h1 h2
    obtain ⟨pt, hpt⟩ := desc_parent_some h1
    rcases parent_of_desc h1 pt hpt with e1 | ⟨w1, hw1, hw1id, hd1⟩
    · rcases parent_of_desc h2 pt hpt with e2 | ⟨w2, hw2, hw2id, hd2⟩
      · exact hne (id_inj hnodup hc1 hc2 (by rw [← e1, e2]))
      · have hwc : w2 = c1 := id_inj hnodup hw2 hc1 (by rw [hw2id, e1])
        exact not_desc_of_sibling hrank hc2 hp1 hp2 (hwc ▸ hd2)
    · rcases parent_of_desc h2 pt hpt with e2 | ⟨w2, hw2, hw2id, hd2⟩
      · have hwc : w1 = c2 := id_inj hnodup hw1 hc2 (by rw [hw1id, e2])
        exact not_desc_of_sibling hrank hc1 hp2 hp1 (hwc ▸ hd1)
      · have hww : w1 = w2 := id_inj hnodup hw1 hw2 (by rw [hw1id, hw2id])
        have htdb : t ∈ db := mem_of_desc h1
        have hrw : rank w1.id < rank t.id :=
          hrank t htdb w1.id (by simp [hpt, hw1id])
        exact ih w1 (by omega) hd1 (hww ▸ hd2)

theorem length_filter_le_of {α : Type} {p q : α → Bool} {l : List α}
    (hpq : ∀ a ∈ l, p a = true → q a = true) :
    (l.filter p).length ≤ (l.filter q).length := by
  induction l with
  | nil => simp
  | cons a l ih =>
    have ih' := ih (fun b hb => hpq b (List.mem_cons_of_mem a hb))
    by_cases hpa : p a = true
    · rw [List.filter_cons_of_pos hpa,
        List.filter_cons_of_pos (hpq a (List.mem_cons_self a l) hpa)]
      simpa using ih'
    · rw [List.filter_cons_of_neg (by simpa using hpa)]
      cases hqa : q a
      · rw [List.filter_cons_of_neg (by simp [hqa])]
        exact ih'
      · rw [List.filter_cons_of_pos hqa]
        simp only [List.length_cons]
        omega

theorem length_filter_lt_of {α : Type} {p q : α → Bool} {l : List α}
    (hpq : ∀ a ∈ l, p a = true → q a = true) {x : α} (hx : x ∈ l)
    (hqx : q x = true) (hpx : p x = false) :
    (l.filter p).length < (l.filter q).length := by
  induction l with
  | nil => cases hx
  | cons a l ih =>
    have hpq' : ∀ b ∈ l, p b = true → q b = true :=
      fun b hb => hpq b (List.mem_cons_of_mem a hb)
    rcases List.mem_cons.mp hx with rfl | hx'
    · rw [List.filter_cons_of_neg (by simp [hpx]), List.filter_cons_of_pos hqx]
      simp only [List.length_cons]
      exact Nat.lt_succ_of_le (length_filter_le_of hpq')
    · by_cases hpa : p a = true
      · rw [List.filter_cons_of_pos hpa,
          List.filter_cons_of_pos (hpq a (List.mem_cons_self a l) hpa)]
        simpa using ih hpq' hx'
      · rw [List.filter_cons_of_neg (by simpa using hpa)]
        cases hqa : q a
        · rw [List.filter_cons_of_neg (by simp [hqa])]
          exact ih hpq' hx'
        · rw [List.filter_cons_of_pos hqa]
          have := ih hpq' hx'
          simp only [List.length_cons]
          omega

/-- Entering a stored child strictly shrinks the recursion bound. -/
theorem rankBound_lt_of_child {rank : String → Nat} {db : List Thread} {x : String}
    {c : Thread} (hc : c ∈ db) (hcx : rank x < rank c.id) :
    rankBound rank db c.id < rankBound rank db x := by
  unfold rankBound
  refine length_filter_lt_of ?_ hc (by simpa using hcx) (by simp)
  intro a _ ha
  simp only [decide_eq_true_eq] at ha ⊢
  omega

theorem rankBound_pos_of_child {rank : String → Nat} {db : List Thread} {x : String}
    {c : Thread} (hc : c ∈ db) (hcx : rank x < rank c.id) :
    1 ≤ rankBound rank db x := by
  have : c ∈ db.filter (fun t => decide (rank x < rank t.id)) :=
    List.mem_filter.mpr ⟨hc, by simpa using hcx⟩
  have := List.length_pos_of_mem this
  unfold rankBound
  omega

theorem rankBound_le_length {rank : String → Nat} {db : List Thread} {x : String} :
    rankBound rank db x ≤ db.length :=
  List.length_filter_le _ _

/-- Everything the enumeration returns is a descendant of the root it
was started from (no acyclicity needed for this direction). -/
theorem desc_of_mem_F {db : List Thread} :
    ∀ {fuel : Nat} {x : String} {t : Thread},
      t ∈ fetchAllChildThreadsF db fuel x → Desc db x t := by
  intro fuel
  induction fuel with
  | zero => intro x t h; simp [fetchAllChildThreadsF] at h
  | succ n ih =>
    intro x t h
    rw [fetchAllChildThreadsF] at h
    obtain ⟨c, hc, hmem⟩ := List.mem_flatMap.mp h
    obtain ⟨hcdb, hcp⟩ : c ∈ db ∧ c.parentId = some x := by
      have := List.mem_filter.mp hc
      simpa using this
    rcases List.mem_cons.mp hmem with rfl | hrec
    · exact Desc.child x t hcdb hcp
    · exact Desc.nest x c t hcdb hcp (ih hrec)

/-- With enough fuel, the enumeration finds every descendant. -/
theorem mem_F_of_desc {rank : String → Nat} {db : List Thread}
    (hrank : RankOk rank db) {x : String} {t : Thread} (h : Desc db x t) :
    ∀ fuel, rankBound rank db x ≤ fuel →
      t ∈ fetchAllChildThreadsF db fuel x := by
  induction h with
  | child r a ha hp =>
    intro fuel hfuel
    have hra : rank r < rank a.id := hrank a ha r (by simp [hp])
    have h1 : 1 ≤ rankBound rank db r := rankBound_pos_of_child ha hra
    obtain ⟨f, rfl⟩ : ∃ f, fuel = f + 1 := ⟨fuel - 1, by omega⟩
    rw [fetchAllChildThreadsF]
    exact List.mem_flatMap.mpr
      ⟨a, List.mem_filter.mpr ⟨ha, by simpa using hp⟩, List.mem_cons_self a _⟩
  | nest r c a hc hp _ ih =>
    intro fuel hfuel
    have hrc : rank r < rank c.id := hrank c hc r (by simp [hp])
    have hlt : rankBound rank db c.id < rankBound rank db r := rankBound_lt_of_child hc hrc
    have h1 : 1 ≤ rankBound rank db r := rankBound_pos_of_child hc hrc
    obtain ⟨f, rfl⟩ : ∃ f, fuel = f + 1 := ⟨fuel - 1, by omega⟩
    rw [fetchAllChildThreadsF]
    refine List.mem_flatMap.mpr
      ⟨c, List.mem_filter.mpr ⟨hc, by simpa using hp⟩, List.mem_cons_of_mem c ?_⟩
    exact ih f (by omega)

/-- Above the rank bound, the fuel does not matter: the recursion has
fully terminated. -/
theorem F_stable {rank : String → Nat} {db : List Thread} (hrank : RankOk rank db) :
    ∀ n x f1 f2, rankBound rank db x ≤ n → rankBound rank db x ≤ f1 →
      rankBound rank db x ≤ f2 →
      fetchAllChildThreadsF db f1 x = fetchAllChildThreadsF db f2 x := by
  have hempty : ∀ x, rankBound rank db x = 0 →
      db.filter (fun t => decide (t.parentId = some x)) = [] := by
    intro x hB
    rw [List.filter_eq_nil_iff]
    intro t ht hp
    simp only [decide_eq_true_eq] at hp
    have hrt : rank x < rank t.id := hrank t ht x (by simp [hp])
    have := rankBound_pos_of_child ht hrt
    omega
  intro n
  induction n with
  | zero =>
    intro x f1 f2 hn h1 h2
    have hc := hempty x (by omega)
    cases f1 <;> cases f2 <;> simp [fetchAllChildThreadsF, hc]
  | succ n ih =>
    intro x f1 f2 hn h1 h2
    by_cases hB : rankBound rank db x = 0
    · have hc := hempty x hB
      cases f1 <;> cases f2 <;> simp [fetchAllChildThreadsF, hc]
    · obtain ⟨g1, rfl⟩ : ∃ g, f1 = g + 1 := ⟨f1 - 1, by omega⟩
      obtain ⟨g2, rfl⟩ : ∃ g, f2 = g + 1 := ⟨f2 - 1, by omega⟩
      rw [fetchAllChildThreadsF, fetchAllChildThreadsF]
      unfold List.flatMap
      congr 1
      refine List.map_congr_left ?_
      intro c hc
      obtain ⟨hcdb, hcp⟩ : c ∈ db ∧ c.parentId = some x := by
        have := List.mem_filter.mp hc
        simpa using this
      have hrc : rank x < rank c.id := hrank c hcdb x (by simp [hcp])
      have hlt : rankBound rank db c.id < rankBound rank db x := rankBound_lt_of_child hcdb hrc
      have := ih c.id g1 g2 (by omega) (by omega) (by omega)
      rw [this]

/-- The enumeration never lists the same thread id twice. -/
theorem F_ids_nodup {rank : String → Nat} {db : List Thread}
    (hrank : RankOk rank db) (hnodup : (db.map (fun t => t.id)).Nodup) :
    ∀ fuel x,
      ((fetchAllChildThreadsF db fuel x).map (fun t => t.id)).Nodup := by
  intro fuel
  induction fuel with
  | zero => intro x; simp [fetchAllChildThreadsF]
  | succ n ih =>
    intro x
    rw [fetchAllChildThreadsF, List.map_flatMap, List.nodup_flatMap]
    have hchild : ∀ c ∈ db.filter (fun t => decide (t.parentId = some x)),
        c ∈ db ∧ c.parentId = some x := by
      intro c hc
      have := List.mem_filter.mp hc
      simpa using this
    constructor
    · intro c hc
      obtain ⟨hcdb, hcp⟩ := hchild c hc
      simp only [List.map_cons, List.nodup_cons]
      refine ⟨?_, ih c.id⟩
      intro hmem
      obtain ⟨t, htF, htid⟩ := List.mem_map.mp hmem
      have hdesc := desc_of_mem_F htF
      have := rank_lt_of_desc hrank hdesc
      rw [htid] at this
      omega
    · have hdbnd : db.Nodup := List.Nodup.of_map _ hnodup
      have hfilnd : (db.filter (fun t => decide (t.parentId = some x))).Nodup :=
        List.Nodup.filter _ hdbnd
      refine List.Pairwise.imp_of_mem ?_ hfilnd
      intro c1 c2 hc1 hc2 hne
      obtain ⟨hc1db, hc1p⟩ := hchild c1 hc1
      obtain ⟨hc2db, hc2p⟩ := hchild c2 hc2
      intro a ha1 ha2
      simp only [List.map_cons, List.mem_cons] at ha1 ha2
      have branchOf : ∀ {c : Thread} {b : String}, c ∈ db →
          (b = c.id ∨ b ∈ (fetchAllChildThreadsF db n c.id).map (fun t => t.id)) →
          ∃ w, w ∈ db ∧ w.id = b ∧ (w = c ∨ Desc db c.id w) := by
        intro c b hcdb hb
        rcases hb with rfl | hb
        · exact ⟨c, hcdb, rfl, Or.inl rfl⟩
        · obtain ⟨w, hwF, hwid⟩ := List.mem_map.mp hb
          exact ⟨w, mem_of_desc (desc_of_mem_F hwF), hwid, Or.inr (desc_of_mem_F hwF)⟩
      obtain ⟨w1, hw1db, hw1id, hw1⟩ := branchOf hc1db ha1
      obtain ⟨w2, hw2db, hw2id, hw2⟩ := branchOf hc2db ha2
      have hww : w1 = w2 := id_inj hnodup hw1db hw2db (by rw [hw1id, hw2id])
      subst hww
      rcases hw1 with rfl | hd1
      · rcases hw2 with rfl | hd2
        · exact hne rfl
        · exact not_desc_of_sibling hrank hc2db hc1p hc2p hd2
      · rcases hw2 with rfl | hd2
        · exact not_desc_of_sibling hrank hc1db hc2p hc1p hd1
        · exact desc_not_in_two_branches hrank hnodup hc1db hc2db hc1p hc2p hne w1 hd1 hd2

/-- The enumeration lists every thread before its own descendants. -/
theorem F_pairwise {rank : String → Nat} {db : List Thread}
    (hrank : RankOk rank db) (hnodup : (db.map (fun t => t.id)).Nodup) :
    ∀ fuel x,
      (fetchAllChildThreadsF db fuel x).Pairwise (fun a b => ¬ Desc db b.id a) := by
  intro fuel
  induction fuel with
  | zero => intro x; simp [fetchAllChildThreadsF]
  | succ n ih =>
    intro x
    rw [fetchAllChildThreadsF]
    unfold List.flatMap
    rw [List.pairwise_flatten]
    have hchild : ∀ c ∈ db.filter (fun t => decide (t.parentId = some x)),
        c ∈ db ∧ c.parentId = some x := by
      intro c hc
      have := List.mem_filter.mp hc
      simpa using this
    refine ⟨?_, ?_⟩
    · intro l hl
      obtain ⟨c, hc, rfl⟩ := List.mem_map.mp hl
      obtain ⟨hcdb, hcp⟩ := hchild c hc
      rw [List.pairwise_cons]
      refine ⟨?_, ih c.id⟩
      intro b hb hdb
      have hdesc : Desc db c.id b := desc_of_mem_F hb
      have h1 := rank_lt_of_desc hrank hdesc
      have h2 := rank_lt_of_desc hrank hdb
      omega
    · have hdbnd : db.Nodup := List.Nodup.of_map _ hnodup
      have hfilnd : (db.filter (fun t => decide (t.parentId = some x))).Nodup :=
        List.Nodup.filter _ hdbnd
      rw [List.pairwise_map]
      refine List.Pairwise.imp_of_mem ?_ hfilnd
      intro c1 c2 hc1 hc2 hne
      obtain ⟨hc1db, hc1p⟩ := hchild c1 hc1
      obtain ⟨hc2db, hc2p⟩ := hchild c2 hc2
      intro a ha1 b hb2 hdb
      rcases List.mem_cons.mp ha1 with rfl | ha1'
      · -- a = c1; it cannot descend from b, which lies in the sibling branch of c2
        rcases List.mem_cons.mp hb2 with rfl | hb2'
        · exact not_desc_of_sibling hrank hc2db hc1p hc2p hdb
        · have : Desc db c2.id a := desc_trans (desc_of_mem_F hb2') hdb
          exact not_desc_of_sibling hrank hc2db hc1p hc2p this
      · have hd1 : Desc db c1.id a := desc_of_mem_F ha1'
        have hd2 : Desc db c2.id a := by
          rcases List.mem_cons.mp hb2 with rfl | hb2'
          · exact hdb
          · exact desc_trans (desc_of_mem_F hb2') hdb
        exact desc_not_in_two_branches hrank hnodup hc1db hc2db hc1p hc2p hne a hd1 hd2

/-- Characterization of the production enumeration. -/
theorem mem_fetchAllChildThreads_iff {rank : String → Nat} {db : List Thread}
    (hrank : RankOk rank db) {x : String}
    {t : Thread} : t ∈ fetchAllChildThreads db x ↔ Desc db x t := by
  constructor
  · exact desc_of_mem_F
  · intro h
    exact mem_F_of_desc hrank h db.length rankBound_le_length

/-- Membership in the computed id set `descendantThreadIds` is exactly
the `DeletedId` predicate. -/
theorem mem_deletedIds_iff {rank : String → Nat} {db : List Thread}
    (hrank : RankOk rank db) {tgt : String} {x : String} :
    x ∈ tgt :: (fetchAllChildThreads db tgt).map (fun t => t.id) ↔ DeletedId db tgt x := by
  rw [List.mem_cons]
  constructor
  · rintro (rfl | hx)
    · exact Or.inl rfl
    · obtain ⟨t, htF, htid⟩ := List.mem_map.mp hx
      exact Or.inr ⟨t, mem_of_desc (desc_of_mem_F htF), htid, desc_of_mem_F htF⟩
  · rintro (rfl | ⟨t, htdb, htid, hdesc⟩)
    · exact Or.inl rfl
    · exact Or.inr (List.mem_map.mpr
        ⟨t, (mem_fetchAllChildThreads_iff hrank).mpr hdesc, htid⟩)

/-- The target id and the enumerated descendant ids are pairwise
distinct. -/
theorem deletedIds_nodup {rank : String → Nat} {db : List Thread}
    (hrank : RankOk rank db) (hnodup : (db.map (fun t => t.id)).Nodup)
    (tgt : String) :
    (tgt :: (fetchAllChildThreads db tgt).map (fun t => t.id)).Nodup := by
  rw [List.nodup_cons]
  refine ⟨?_, F_ids_nodup hrank hnodup db.length tgt⟩
  intro hmem
  obtain ⟨t, htF, htid⟩ := List.mem_map.mp hmem
  have := rank_lt_of_desc hrank (desc_of_mem_F htF)
  rw [htid] at this
  omega

/-- Selecting stored threads by a duplicate-free id list selects
exactly one thread per listed id. -/
theorem length_filter_mem_eq {db : List Thread}
    (hnodup : (db.map (fun t => t.id)).Nodup) {sel : List String}
    (hsel : sel.Nodup) (hsub : ∀ x ∈ sel, x ∈ db.map (fun t => t.id)) :
    (db.filter (fun t => decide (t.id ∈ sel))).length = sel.length := by
  have hmapeq : (db.map (fun t => t.id)).filter (fun x => decide (x ∈ sel))
      = (db.filter (fun t => decide (t.id ∈ sel))).map (fun t => t.id) :=
    List.filter_map (fun t : Thread => t.id) db
  have hlen : (db.filter (fun t => decide (t.id ∈ sel))).length
      = ((db.map (fun t => t.id)).filter (fun x => decide (x ∈ sel))).length := by
    rw [hmapeq, List.length_map]
  rw [hlen]
  refine List.Perm.length_eq ?_
  rw [List.perm_iff_count]
  intro a
  by_cases ha : a ∈ sel
  · have hfil : a ∈ (db.map (fun t => t.id)).filter (fun x => decide (x ∈ sel)) :=
      List.mem_filter.mpr ⟨hsub a ha, by simpa using ha⟩
    rw [List.count_eq_one_of_mem (List.Nodup.filter _ hnodup) hfil,
      List.count_eq_one_of_mem hsel ha]
  · rw [List.count_eq_zero_of_not_mem, List.count_eq_zero_of_not_mem ha]
    intro hfil
    exact ha (by simpa using (List.mem_filter.mp hfil).2)

/-- In a store whose keys are duplicate-free, `find?` by the key of a
stored element returns exactly that element. -/
theorem find?_key_eq_some {α : Type} {β : Type} [DecidableEq β] (key : α → β) {l : List α}
    (hnodup : (l.map key).Nodup) {a : α} (ha : a ∈ l) :
    l.find? (fun x => decide (key x = key a)) = some a := by
  induction l with
  | nil => cases ha
  | cons x l ih =>
    rw [List.map_cons, List.nodup_cons] at hnodup
    rcases List.mem_cons.mp ha with rfl | ha2
    · rw [List.find?_cons_of_pos _ (by simp)]
    · have hne : key x ≠ key a := fun e => hnodup.1 (e ▸ List.mem_map.mpr ⟨a, ha2, rfl⟩)
      rw [List.find?_cons_of_neg _ (by simpa using hne)]
      exact ih hnodup.2 ha2

/-- Single `addCommentToThread` against a stored post with a fresh
store-assigned id: the resulting store rewrites the parent in place
and appends the new comment thread. -/
theorem addComment_ok {db : DB} {post : Thread} {text uid nid : String} {now : Nat}
    (hnodup : (db.threads.map (fun t => t.id)).Nodup)
    (hpost : post ∈ db.threads)
    (hfresh : nid ∉ db.threads.map (fun t => t.id)) :
    addCommentToThread post.id text uid nid now db = Except.ok
      { db with
        threads :=
          db.threads.map
            (fun t => if t.id = post.id then { post with children := post.children ++ [nid] } else t)
          ++ [{ id := nid, text := text, author := uid, community := none,
                createdAt := now, parentId := some post.id, children := [] }] } := by
  have hfind : db.threads.find? (fun t => decide (t.id = post.id)) = some post :=
    find?_key_eq_some (fun t => t.id) hnodup hpost
  have hne : nid ≠ post.id := fun e => hfresh (e ▸ List.mem_map.mpr ⟨post, hpost, rfl⟩)
  rw [addCommentToThread, hfind]
  dsimp only
  rw [List.map_append]
  simp [hne]

/-- Folding `addCommentToThread` over a batch of fresh, distinct ids:
all calls succeed, the parent accumulates exactly the batch ids in
order, every comment thread is stored with the right fields, and all
other threads survive unchanged. -/
theorem applyComments_ok (now : Nat) :
    ∀ (cmds : List (String × String × String)) (db : DB) (post : Thread),
    (db.threads.map (fun t => t.id)).Nodup →
    post ∈ db.threads →
    (cmds.map (fun c => c.2.2)).Nodup →
    (∀ c ∈ cmds, c.2.2 ∉ db.threads.map (fun t => t.id)) →
    ∃ db2, applyComments post.id now cmds db = Except.ok db2 ∧
      (∃ post2, post2 ∈ db2.threads ∧ post2.id = post.id ∧
        post2.children = post.children ++ cmds.map (fun c => c.2.2)) ∧
      (∀ c ∈ cmds, ∃ t, t ∈ db2.threads ∧ t.id = c.2.2 ∧ t.parentId = some post.id ∧
        t.text = c.1 ∧ t.author = c.2.1) ∧
      (∀ t ∈ db.threads, t.id ≠ post.id → t ∈ db2.threads) := by
  intro cmds
  induction cmds with
  | nil =>
    intro db post h1 h2 _ _
    exact ⟨db, rfl, ⟨post, h2, rfl, by simp⟩, by simp, fun t ht _ => ht⟩
  | cons c rest ih =>
    intro db post hnodup hpost hids hfresh
    obtain ⟨text, uid, nid⟩ := c
    have hfreshn : nid ∉ db.threads.map (fun t => t.id) :=
      hfresh _ (List.mem_cons_self _ _)
    have hne : nid ≠ post.id := fun e => hfreshn (e ▸ List.mem_map.mpr ⟨post, hpost, rfl⟩)
    have hstep := @addComment_ok db post text uid nid now hnodup hpost hfreshn
    set postUpd : Thread := { post with children := post.children ++ [nid] } with hpostUpd
    set tc : Thread :=
      { id := nid, text := text, author := uid, community := none,
        createdAt := now, parentId := some post.id, children := [] } with htc
    set db1 : DB :=
      { db with
        threads :=
          db.threads.map (fun t => if t.id = post.id then postUpd else t) ++ [tc] } with hdb1
    have hids1 : db1.threads.map (fun t => t.id) = db.threads.map (fun t => t.id) ++ [nid] := by
      rw [hdb1]
      simp only [List.map_append, List.map_map]
      congr 1
      refine List.map_congr_left ?_
      intro t _
      by_cases h : t.id = post.id <;> simp [h, hpostUpd]
    have hnodup1 : (db1.threads.map (fun t => t.id)).Nodup := by
      rw [hids1]
      simp only [List.nodup_append, List.nodup_cons, List.nodup_nil]
      exact ⟨hnodup, by simp, by simpa using fun hn => hfreshn hn⟩
    have hpost1 : postUpd ∈ db1.threads := by
      rw [hdb1]
      exact List.mem_append_left _ (List.mem_map.mpr ⟨post, hpost, by simp⟩)
    have hidsrest : (rest.map (fun c => c.2.2)).Nodup := by
      rw [List.map_cons, List.nodup_cons] at hids
      exact hids.2
    have hfreshrest : ∀ c ∈ rest, c.2.2 ∉ db1.threads.map (fun t => t.id) := by
      intro c hc
      rw [hids1]
      intro hmem
      rcases List.mem_append.mp hmem with hm | hm
      · exact hfresh c (List.mem_cons_of_mem _ hc) hm
      · rw [List.map_cons, List.nodup_cons] at hids
        exact hids.1 (List.mem_singleton.mp hm ▸ List.mem_map.mpr ⟨c, hc, rfl⟩)
    obtain ⟨db2, hrun, ⟨post2, hpost2, hpost2id, hpost2ch⟩, hcomments, hframe⟩ :=
      ih db1 postUpd hnodup1 hpost1 hidsrest hfreshrest
    refine ⟨db2, ?_, ⟨post2, hpost2, hpost2id, ?_⟩, ?_, ?_⟩
    · rw [applyComments, hstep]
      exact hrun
    · rw [hpost2ch, hpostUpd]
      simp
    · intro c hc
      rcases List.mem_cons.mp hc with rfl | hc2
      · refine ⟨tc, ?_, by rw [htc], by rw [htc], by rw [htc], by rw [htc]⟩
        refine hframe tc ?_ (by rw [htc]; simpa using hne)
        rw [hdb1]
        exact List.mem_append_right _ (List.mem_singleton.mpr rfl)
      · obtain ⟨t, htdb2, h1, h2, h3, h4⟩ := hcomments c hc2
        exact ⟨t, htdb2, h1, h2, h3, h4⟩
    · intro t ht htne
      refine hframe t ?_ htne
      rw [hdb1]
      refine List.mem_append_left _ (List.mem_map.mpr ⟨t, ht, by simp [htne]⟩)

/-- `find?` commutes with mapping a function that does not change the
predicate's verdict. -/
theorem find?_map_preserve {α : Type} (f : α → α) (p : α → Bool) (l : List α)
    (hp : ∀ a, p (f a) = p a) :
    (l.map f).find? p = (l.find? p).map f := by
  induction l with
  | nil => rfl
  | cons a l ih =>
    rw [List.map_cons]
    cases hpa : p a
    · rw [List.find?_cons_of_neg _ (by simp [hp, hpa]),
        List.find?_cons_of_neg _ (by simp [hpa])]
      exact ih
    · rw [List.find?_cons_of_pos _ (by rw [hp]; exact hpa),
        List.find?_cons_of_pos _ hpa]
      rfl

end Roar

/-! ## Claim theorems -/

namespace Roar

/-- **C10**: under the precondition that the `parentId` relation over
stored Threads is acyclic (a forest, witnessed by a rank function that
increases across every stored parent link), the recursive descendant
enumeration `fetchAllChildThreads` terminates for every starting id —
its fuel-indexed unfolding is already stable at fuel `db.length`, so
the recursion needs no more depth than that — and it returns each
transitive descendant exactly once, with each thread listed before its
own descendants. -/
theorem fetchAllChildThreads_correct
    (rank : String → Nat) (db : List Thread) (tgt : String)
    (hrank : RankOk rank db) (hnodup : (db.map (fun t => t.id)).Nodup) :
    (∀ fuel, db.length ≤ fuel →
        fetchAllChildThreadsF db fuel tgt = fetchAllChildThreads db tgt) ∧
    (∀ t, t ∈ fetchAllChildThreads db tgt ↔ Desc db tgt t) ∧
    (∀ t, Desc db tgt t → (fetchAllChildThreads db tgt).count t = 1) ∧
    (fetchAllChildThreads db tgt).Pairwise (fun a b => ¬ Desc db b.id a) := by
  refine ⟨?_, ?_, ?_, ?_⟩
  · intro fuel hfuel
    exact F_stable hrank db.length tgt fuel db.length
      rankBound_le_length (le_trans rankBound_le_length hfuel) rankBound_le_length
  · intro t
    exact mem_fetchAllChildThreads_iff hrank
  · intro t ht
    have hmem := (@mem_fetchAllChildThreads_iff rank db hrank tgt t).mpr ht
    have hnd : (fetchAllChildThreads db tgt).Nodup :=
      List.Nodup.of_map _ (F_ids_nodup hrank hnodup db.length tgt)
    exact List.count_eq_one_of_mem hnd hmem
  · exact F_pairwise hrank hnodup db.length tgt

theorem fetchAllChildThreads_correct_witness :
    (RankOk wRank wThreads ∧ (wThreads.map (fun t => t.id)).Nodup) ∧
    ((∀ fuel, wThreads.length ≤ fuel →
        fetchAllChildThreadsF wThreads fuel "a" = fetchAllChildThreads wThreads "a") ∧
     (∀ t, t ∈ fetchAllChildThreads wThreads "a" ↔ Desc wThreads "a" t) ∧
     (∀ t, Desc wThreads "a" t → (fetchAllChildThreads wThreads "a").count t = 1) ∧
     (fetchAllChildThreads wThreads "a").Pairwise (fun a b => ¬ Desc wThreads b.id a)) :=
  ⟨⟨by decide, by decide⟩,
    fetchAllChildThreads_correct wRank wThreads "a" (by decide) (by decide)⟩

/-- **C1**: for every existing Thread id, `deleteThread` succeeds and
removes from the Thread store exactly the target and its transitive
descendants: a thread document remains stored iff it was stored before
and its id is neither the target nor a descendant's id; the number of
removed threads is 1 (the target) plus the length of the descendant
enumeration, which by C10 lists each descendant exactly once — so a
target with no descendants is the only removal and a chain of depth D
loses exactly D+1 threads. -/
theorem deleteThread_removes_exactly_subtree
    (rank : String → Nat) (db : DB) (tgt : String)
    (hrank : RankOk rank db.threads)
    (hnodup : (db.threads.map (fun t => t.id)).Nodup)
    (hmem : tgt ∈ db.threads.map (fun t => t.id)) :
    ∃ db', deleteThread tgt db = Except.ok db' ∧
      (∀ t : Thread, t ∈ db'.threads ↔ t ∈ db.threads ∧ ¬ DeletedId db.threads tgt t.id) ∧
      db.threads.length
        = db'.threads.length + (1 + (fetchAllChildThreads db.threads tgt).length) := by
  obtain ⟨m, hmdb, hmid⟩ := List.mem_map.mp hmem
  cases hfind : db.threads.find? (fun t => decide (t.id = tgt)) with
  | none =>
    exfalso
    have := List.find?_eq_none.mp hfind m hmdb
    simp [hmid] at this
  | some m0 =>
    refine ⟨_, by rw [deleteThread, hfind], ?_, ?_⟩
    · intro t
      constructor
      · intro ht
        have := List.mem_filter.mp ht
        refine ⟨this.1, ?_⟩
        have hnotin : t.id ∉ tgt :: (fetchAllChildThreads db.threads tgt).map (fun u => u.id) := by
          simpa using this.2
        exact fun hdel => hnotin ((mem_deletedIds_iff hrank).mpr hdel)
      · intro ⟨htdb, hdel⟩
        refine List.mem_filter.mpr ⟨htdb, ?_⟩
        simpa using fun hin => hdel ((mem_deletedIds_iff hrank).mp hin)
    · have hperm := List.length_eq_length_filter_add
        (l := db.threads)
        (fun t => decide (t.id ∉ tgt :: (fetchAllChildThreads db.threads tgt).map (fun u => u.id)))
      have hneg : (db.threads.filter
          (fun t => !(decide (t.id ∉ tgt :: (fetchAllChildThreads db.threads tgt).map (fun u => u.id))))).length
          = (db.threads.filter
          (fun t => decide (t.id ∈ tgt :: (fetchAllChildThreads db.threads tgt).map (fun u => u.id)))).length := by
        congr 1
        refine List.filter_congr ?_
        intro t _
        by_cases h : t.id ∈ tgt :: (fetchAllChildThreads db.threads tgt).map (fun u => u.id) <;>
          simp [h]
      have hsel : (db.threads.filter
          (fun t => decide (t.id ∈ tgt :: (fetchAllChildThreads db.threads tgt).map (fun u => u.id)))).length
          = (tgt :: (fetchAllChildThreads db.threads tgt).map (fun u => u.id)).length := by
        refine length_filter_mem_eq hnodup (deletedIds_nodup hrank hnodup tgt) ?_
        intro x hx
        rcases List.mem_cons.mp hx with rfl | hx'
        · exact hmem
        · obtain ⟨t, htF, htid⟩ := List.mem_map.mp hx'
          exact htid ▸ List.mem_map.mpr ⟨t, mem_of_desc (desc_of_mem_F htF), rfl⟩
      rw [hperm, hneg, hsel]
      simp [deleteThread, hfind]
      omega

theorem deleteThread_removes_exactly_subtree_witness :
    (RankOk wRank wDB.threads ∧ (wDB.threads.map (fun t => t.id)).Nodup ∧
      "a" ∈ wDB.threads.map (fun t => t.id)) ∧
    (∃ db', deleteThread "a" wDB = Except.ok db' ∧
      (∀ t : Thread, t ∈ db'.threads ↔ t ∈ wDB.threads ∧ ¬ DeletedId wDB.threads "a" t.id) ∧
      wDB.threads.length
        = db'.threads.length + (1 + (fetchAllChildThreads wDB.threads "a").length)) :=
  ⟨⟨by decide, by decide, by decide⟩,
    deleteThread_removes_exactly_subtree wRank wDB "a" (by decide) (by decide) (by decide)⟩

/-- **C2**: under consistent back-references (a user's `threads` list
only holds ids of threads it authored; a community's `threads` list
only holds ids of threads posted into it — the §3 invariant), after
`deleteThread` succeeds every user's and every community's `threads`
list contains none of the deleted ids, and the surviving ids are
exactly the previous non-deleted ones in their original relative
order (the new list is a sublist of the old one). -/
theorem deleteThread_scrubs_backreferences
    (rank : String → Nat) (db : DB) (tgt : String)
    (hrank : RankOk rank db.threads)
    (hnodup : (db.threads.map (fun t => t.id)).Nodup)
    (hmem : tgt ∈ db.threads.map (fun t => t.id))
    (hconsU : ∀ u ∈ db.users, ∀ x ∈ u.threads, ∀ t ∈ db.threads,
      t.id = x → t.author = u.id)
    (hconsC : ∀ c ∈ db.communities, ∀ x ∈ c.threads, ∀ t ∈ db.threads,
      t.id = x → t.community = some c.id) :
    ∃ db', deleteThread tgt db = Except.ok db' ∧
      List.Forall₂ (fun (u u' : User) => u'.id = u.id ∧ u'.threads.Sublist u.threads ∧
        (∀ x, x ∈ u'.threads ↔ x ∈ u.threads ∧ ¬ DeletedId db.threads tgt x))
        db.users db'.users ∧
      List.Forall₂ (fun (c c' : Community) => c'.id = c.id ∧ c'.threads.Sublist c.threads ∧
        (∀ x, x ∈ c'.threads ↔ x ∈ c.threads ∧ ¬ DeletedId db.threads tgt x))
        db.communities db'.communities := by
  obtain ⟨m, hmdb, hmid⟩ := List.mem_map.mp hmem
  cases hfind : db.threads.find? (fun t => decide (t.id = tgt)) with
  | none =>
    exfalso
    have := List.find?_eq_none.mp hfind m hmdb
    simp [hmid] at this
  | some m0 =>
    have hm0db : m0 ∈ db.threads := List.mem_of_find?_eq_some hfind
    have hm0id : m0.id = tgt := by
      have := List.find?_some hfind
      simpa using this
    have hmm0 : m = m0 := id_inj hnodup hmdb hm0db (by rw [hmid, hm0id])
    -- a deleted id is always authored by a collected author id and
    -- (when it has one) posted into a collected community id
    have hdelthread : ∀ x, DeletedId db.threads tgt x →
        ∃ t, t ∈ db.threads ∧ t.id = x ∧
          t.author ∈ ((fetchAllChildThreads db.threads tgt).map (fun u => u.author)
            ++ [m0.author]).dedup ∧
          (∀ cid, t.community = some cid →
            cid ∈ (((fetchAllChildThreads db.threads tgt).map (fun u => u.community)
              ++ [m0.community]).filterMap (fun o => o)).dedup) := by
      intro x hdel
      rcases hdel with rfl | ⟨t, htdb, htid, hdesc⟩
      · refine ⟨m0, hm0db, hm0id, ?_, ?_⟩
        · rw [List.mem_dedup]
          exact List.mem_append_right _ (List.mem_singleton.mpr rfl)
        · intro cid hcid
          rw [List.mem_dedup]
          refine List.mem_filterMap.mpr ⟨some cid, ?_, rfl⟩
          exact List.mem_append_right _ (by simp [hcid])
      · have htenum : t ∈ fetchAllChildThreads db.threads tgt :=
          (mem_fetchAllChildThreads_iff hrank).mpr hdesc
        refine ⟨t, htdb, htid, ?_, ?_⟩
        · rw [List.mem_dedup]
          exact List.mem_append_left _ (List.mem_map.mpr ⟨t, htenum, rfl⟩)
        · intro cid hcid
          rw [List.mem_dedup]
          refine List.mem_filterMap.mpr ⟨some cid, ?_, rfl⟩
          exact List.mem_append_left _ (List.mem_map.mpr ⟨t, htenum, hcid⟩)
    refine ⟨_, by rw [deleteThread, hfind], ?_, ?_⟩
    · refine List.forall₂_map_right_iff.mpr (List.forall₂_same.mpr ?_)
      intro u hu
      by_cases hcase : u.id ∈ ((fetchAllChildThreads db.threads tgt).map (fun t => t.author)
          ++ [m0.author]).dedup
      · rw [if_pos hcase]
        refine ⟨rfl, List.filter_sublist _, ?_⟩
        intro x
        rw [List.mem_filter]
        constructor
        · intro ⟨hxu, hxdec⟩
          refine ⟨hxu, ?_⟩
          have : x ∉ tgt :: (fetchAllChildThreads db.threads tgt).map (fun t => t.id) := by
            simpa using hxdec
          exact fun hdel => this ((mem_deletedIds_iff hrank).mpr hdel)
        · intro ⟨hxu, hdel⟩
          refine ⟨hxu, ?_⟩
          simpa using fun hin => hdel ((mem_deletedIds_iff hrank).mp hin)
      · rw [if_neg hcase]
        refine ⟨rfl, List.Sublist.refl _, ?_⟩
        intro x
        refine ⟨fun hxu => ⟨hxu, ?_⟩, fun h => h.1⟩
        intro hdel
        obtain ⟨t, htdb, htid, hauth, _⟩ := hdelthread x hdel
        exact hcase (hconsU u hu x hxu t htdb htid ▸ hauth)
    · refine List.forall₂_map_right_iff.mpr (List.forall₂_same.mpr ?_)
      intro c hc
      by_cases hcase : c.id ∈ (((fetchAllChildThreads db.threads tgt).map (fun t => t.community)
          ++ [m0.community]).filterMap (fun o => o)).dedup
      · rw [if_pos hcase]
        refine ⟨rfl, List.filter_sublist _, ?_⟩
        intro x
        rw [List.mem_filter]
        constructor
        · intro ⟨hxc, hxdec⟩
          refine ⟨hxc, ?_⟩
          have : x ∉ tgt :: (fetchAllChildThreads db.threads tgt).map (fun t => t.id) := by
            simpa using hxdec
          exact fun hdel => this ((mem_deletedIds_iff hrank).mpr hdel)
        · intro ⟨hxc, hdel⟩
          refine ⟨hxc, ?_⟩
          simpa using fun hin => hdel ((mem_deletedIds_iff hrank).mp hin)
      · rw [if_neg hcase]
        refine ⟨rfl, List.Sublist.refl _, ?_⟩
        intro x
        refine ⟨fun hxc => ⟨hxc, ?_⟩, fun h => h.1⟩
        intro hdel
        obtain ⟨t, htdb, htid, _, hcomm⟩ := hdelthread x hdel
        exact hcase (hcomm c.id (hconsC c hc x hxc t htdb htid))
theorem deleteThread_scrubs_backreferences_witness :
    (RankOk wRank wDB.threads ∧ (wDB.threads.map (fun t => t.id)).Nodup ∧
      "b" ∈ wDB.threads.map (fun t => t.id) ∧
      (∀ u ∈ wDB.users, ∀ x ∈ u.threads, ∀ t ∈ wDB.threads, t.id = x → t.author = u.id) ∧
      (∀ c ∈ wDB.communities, ∀ x ∈ c.threads, ∀ t ∈ wDB.threads,
        t.id = x → t.community = some c.id)) ∧
    (∃ db', deleteThread "b" wDB = Except.ok db' ∧
      List.Forall₂ (fun (u u' : User) => u'.id = u.id ∧ u'.threads.Sublist u.threads ∧
        (∀ x, x ∈ u'.threads ↔ x ∈ u.threads ∧ ¬ DeletedId wDB.threads "b" x))
        wDB.users db'.users ∧
      List.Forall₂ (fun (c c' : Community) => c'.id = c.id ∧ c'.threads.Sublist c.threads ∧
        (∀ x, x ∈ c'.threads ↔ x ∈ c.threads ∧ ¬ DeletedId wDB.threads "b" x))
        wDB.communities db'.communities) :=
  ⟨⟨by decide, by decide, by decide, by decide, by decide⟩,
    deleteThread_scrubs_backreferences wRank wDB "b" (by decide) (by decide) (by decide)
      (by decide) (by decide)⟩

/-- **C5**: `deleteThread` modifies no field of any surviving Thread
document — the survivors are the unchanged original documents — and in
particular it does not detach the deleted subtree from a surviving
parent: deleting a comment whose parent is not deleted leaves the
parent document (including the deleted comment's id inside its
`children` array) exactly as it was, a dangling reference. -/
theorem deleteThread_leaves_surviving_parent_dangling
    (rank : String → Nat) (db : DB) (tgt : String) (main p : Thread)
    (hrank : RankOk rank db.threads)
    (_hnodup : (db.threads.map (fun t => t.id)).Nodup)
    (hmain : main ∈ db.threads) (hmainid : main.id = tgt)
    (hp : p ∈ db.threads) (hparent : main.parentId = some p.id)
    (hchild : tgt ∈ p.children) :
    ∃ db', deleteThread tgt db = Except.ok db' ∧
      (∀ t ∈ db'.threads, t ∈ db.threads) ∧
      p ∈ db'.threads ∧ tgt ∈ p.children := by
  cases hfind : db.threads.find? (fun t => decide (t.id = tgt)) with
  | none =>
    exfalso
    have := List.find?_eq_none.mp hfind main hmain
    simp [hmainid] at this
  | some m0 =>
    refine ⟨_, by rw [deleteThread, hfind], ?_, ?_, hchild⟩
    · intro t ht
      exact (List.mem_filter.mp ht).1
    · refine List.mem_filter.mpr ⟨hp, ?_⟩
      have hppar : rank p.id < rank main.id := hrank main hmain p.id (by simp [hparent])
      simp only [decide_eq_true_eq]
      intro hpin
      rcases List.mem_cons.mp hpin with hid | hid
      · rw [hid, ← hmainid] at hppar
        omega
      · obtain ⟨t, htF, htid⟩ := List.mem_map.mp hid
        have hdesc := desc_of_mem_F htF
        have h1 := rank_lt_of_desc hrank hdesc
        rw [htid, ← hmainid] at h1
        omega

theorem deleteThread_leaves_surviving_parent_dangling_witness :
    (RankOk wRank wDB.threads ∧ (wDB.threads.map (fun t => t.id)).Nodup ∧
      wThreads.get ⟨2, by decide⟩ ∈ wDB.threads ∧ (wThreads.get ⟨2, by decide⟩).id = "c" ∧
      wThreads.get ⟨1, by decide⟩ ∈ wDB.threads ∧
      (wThreads.get ⟨2, by decide⟩).parentId = some (wThreads.get ⟨1, by decide⟩).id ∧
      "c" ∈ (wThreads.get ⟨1, by decide⟩).children) ∧
    (∃ db', deleteThread "c" wDB = Except.ok db' ∧
      (∀ t ∈ db'.threads, t ∈ wDB.threads) ∧
      wThreads.get ⟨1, by decide⟩ ∈ db'.threads ∧
      "c" ∈ (wThreads.get ⟨1, by decide⟩).children) :=
  ⟨⟨by decide, by decide, by decide, by decide, by decide, by decide, by decide⟩,
    deleteThread_leaves_surviving_parent_dangling wRank wDB "c"
      (wThreads.get ⟨2, by decide⟩) (wThreads.get ⟨1, by decide⟩)
      (by decide) (by decide) (by decide) (by decide) (by decide) (by decide) (by decide)⟩

/-- **C8**: starting from a stored post with empty `children`, N
successful `addCommentToThread` calls (with fresh, distinct
store-assigned ids) leave the post's `children` list with exactly N
entries — the new ids in call order — each referencing a stored Thread
whose `parentId` equals the post's id, whose `text` is the given
comment text and whose `author` is the given user id; and when the
parent id does not exist the call fails (amended: it fails with the
generic wrapped message `Unable to add comment` — the internal
`Thread not found` signal is swallowed by the catch, so the failure is
not distinguishable as a NotFound error). -/
theorem addCommentToThread_correct
    (db : DB) (post : Thread) (now : Nat) (cmds : List (String × String × String))
    (hnodup : (db.threads.map (fun t => t.id)).Nodup)
    (hpost : post ∈ db.threads) (hempty : post.children = [])
    (hids : (cmds.map (fun c => c.2.2)).Nodup)
    (hfresh : ∀ c ∈ cmds, c.2.2 ∉ db.threads.map (fun t => t.id)) :
    (∃ db2, applyComments post.id now cmds db = Except.ok db2 ∧
      (∃ post2, post2 ∈ db2.threads ∧ post2.id = post.id ∧
        post2.children = cmds.map (fun c => c.2.2) ∧
        post2.children.length = cmds.length) ∧
      (∀ c ∈ cmds, ∃ t, t ∈ db2.threads ∧ t.id = c.2.2 ∧ t.parentId = some post.id ∧
        t.text = c.1 ∧ t.author = c.2.1)) ∧
    (∀ tid text2 uid2 nid2 now2 (dbx : DB), tid ∉ dbx.threads.map (fun t => t.id) →
      addCommentToThread tid text2 uid2 nid2 now2 dbx
        = Except.error "Unable to add comment") := by
  constructor
  · obtain ⟨db2, hrun, ⟨post2, h1, h2, h3⟩, hcs, _⟩ :=
      applyComments_ok now cmds db post hnodup hpost hids hfresh
    refine ⟨db2, hrun, ⟨post2, h1, h2, ?_, ?_⟩, hcs⟩
    · rw [h3, hempty]
      simp
    · rw [h3, hempty]
      simp
  · intro tid text2 uid2 nid2 now2 dbx hmiss
    have hfind : dbx.threads.find? (fun t => decide (t.id = tid)) = none := by
      refine List.find?_eq_none.mpr ?_
      intro t ht
      simp only [decide_eq_true_eq]
      exact fun e => hmiss (e ▸ List.mem_map.mpr ⟨t, ht, rfl⟩)
    rw [addCommentToThread, hfind]

theorem addCommentToThread_correct_witness :
    ((wDB.threads.map (fun t => t.id)).Nodup ∧
      wThreads.get ⟨3, by decide⟩ ∈ wDB.threads ∧
      (wThreads.get ⟨3, by decide⟩).children = [] ∧
      (([("hi", "u1", "n1"), ("yo", "u2", "n2")].map
        (fun c : String × String × String => c.2.2)).Nodup) ∧
      (∀ c ∈ [("hi", "u1", "n1"), ("yo", "u2", "n2")],
        c.2.2 ∉ wDB.threads.map (fun t => t.id))) ∧
    ((∃ db2, applyComments (wThreads.get ⟨3, by decide⟩).id 7
        [("hi", "u1", "n1"), ("yo", "u2", "n2")] wDB = Except.ok db2 ∧
      (∃ post2, post2 ∈ db2.threads ∧ post2.id = (wThreads.get ⟨3, by decide⟩).id ∧
        post2.children = [("hi", "u1", "n1"), ("yo", "u2", "n2")].map
          (fun c : String × String × String => c.2.2) ∧
        post2.children.length = [("hi", "u1", "n1"), ("yo", "u2", "n2")].length) ∧
      (∀ c ∈ [("hi", "u1", "n1"), ("yo", "u2", "n2")],
        ∃ t, t ∈ db2.threads ∧ t.id = c.2.2 ∧
          t.parentId = some (wThreads.get ⟨3, by decide⟩).id ∧
          t.text = c.1 ∧ t.author = c.2.1)) ∧
    (∀ tid text2 uid2 nid2 now2 (dbx : DB), tid ∉ dbx.threads.map (fun t => t.id) →
      addCommentToThread tid text2 uid2 nid2 now2 dbx
        = Except.error "Unable to add comment")) :=
  ⟨⟨by decide, by decide, by decide, by decide, by decide⟩,
    addCommentToThread_correct wDB (wThreads.get ⟨3, by decide⟩) 7
      [("hi", "u1", "n1"), ("yo", "u2", "n2")]
      (by decide) (by decide) (by decide) (by decide) (by decide)⟩

/-- **C8 counterexample**: with no thread named `nope` stored,
`addCommentToThread` fails with the generic wrapped message
`Unable to add comment` — byte-identical to what the caller sees on a
plain store failure, and not carrying the internal `Thread not found`
signal — so the failure is not a distinguishable NotFound error. -/
theorem addCommentToThread_notfound_counterexample :
    addCommentToThread "nope" "hello" "u1" "n9" 0 wDB
      = Except.error "Unable to add comment" ∧
    addCommentWithFailingStore "ECONNRESET" = Except.error "Unable to add comment" ∧
    "Unable to add comment" ≠ "Thread not found" :=
  ⟨rfl, rfl, by decide⟩

/-- **C9**: every successful `createThread` inserts a Thread with the
given text and author, absent `parentId` and empty `children` —
`fetchThreadById` on the new id immediately after returns exactly that,
with the author resolved — appends the new id to the author's
`threads` list (leaving other users untouched), and appends it to a
Community's `threads` list iff a community was resolved from the given
community identifier (communities are untouched when none resolves). -/
theorem createThread_correct
    (db : DB) (text author : String) (communityId : Option String)
    (newId : String) (now : Nat) (au : User) (db2 : DB)
    (hnodupU : (db.users.map (fun u => u.id)).Nodup)
    (hau : au ∈ db.users) (hauid : au.id = author)
    (hfresh : newId ∉ db.threads.map (fun t => t.id))
    (hdb2 : db2 = createThread text author communityId newId now db) :
    (∃ t, t ∈ db2.threads ∧ t.id = newId ∧ t.text = text ∧ t.author = author ∧
      t.parentId = none ∧ t.children = []) ∧
    (∃ v, fetchThreadById db2 newId = Except.ok (some v) ∧ v.id = newId ∧ v.text = text ∧
      v.parentId = none ∧ v.children = [] ∧
      v.author = some { id := au.id, name := au.name, image := au.image }) ∧
    (∀ u ∈ db.users,
      (u.id = author → { u with threads := u.threads ++ [newId] } ∈ db2.users) ∧
      (u.id ≠ author → u ∈ db2.users)) ∧
    (match db.communities.find? (fun c => decide (some c.eid = communityId)) with
      | some cobj => ∀ c ∈ db.communities,
          (c.id = cobj.id → { c with threads := c.threads ++ [newId] } ∈ db2.communities) ∧
          (c.id ≠ cobj.id → c ∈ db2.communities)
      | none => db2.communities = db.communities) := by
  subst hdb2
  set newThread : Thread :=
    { id := newId, text := text, author := author,
      community := (db.communities.find?
          (fun c => decide (some c.eid = communityId))).map (fun c => c.id),
      createdAt := now, parentId := none, children := [] } with hNT
  have hthreads : (createThread text author communityId newId now db).threads
      = db.threads ++ [newThread] := rfl
  have husers : (createThread text author communityId newId now db).users
      = db.users.map (fun u =>
          if u.id = author then { u with threads := u.threads ++ [newId] } else u) := rfl
  have hcomms : (createThread text author communityId newId now db).communities
      = match db.communities.find? (fun c => decide (some c.eid = communityId)) with
        | none => db.communities
        | some cobj => db.communities.map (fun c =>
            if c.id = cobj.id then { c with threads := c.threads ++ [newId] } else c) := by
    rw [createThread]
  have hfindT : findThread (createThread text author communityId newId now db).threads newId
      = some newThread := by
    rw [hthreads]
    unfold findThread
    rw [List.find?_append]
    have h1 : db.threads.find? (fun t => decide (t.id = newId)) = none := by
      refine List.find?_eq_none.mpr ?_
      intro t ht
      simp only [decide_eq_true_eq]
      exact fun e => hfresh (e ▸ List.mem_map.mpr ⟨t, ht, rfl⟩)
    rw [h1, Option.none_or]
    rw [List.find?_cons_of_pos _ (by rw [hNT]; simp)]
  have hfindU : findUser (createThread text author communityId newId now db).users author
      = some { au with threads := au.threads ++ [newId] } := by
    rw [husers]
    unfold findUser
    rw [find?_map_preserve _ _ _ ?_]
    · have hau2 : db.users.find? (fun u => decide (u.id = author)) = some au := by
        rw [← hauid]
        exact find?_key_eq_some (fun u => u.id) hnodupU hau
      rw [hau2]
      simp [hauid]
    · intro u
      by_cases h : u.id = author <;> simp [h]
  refine ⟨?_, ?_, ?_, ?_⟩
  · refine ⟨newThread, ?_, by rw [hNT], by rw [hNT], by rw [hNT], by rw [hNT], by rw [hNT]⟩
    rw [hthreads]
    exact List.mem_append_right _ (List.mem_singleton.mpr rfl)
  · refine ⟨_, by rw [fetchThreadById, hfindT]; rfl, ?_, ?_, ?_, ?_, ?_⟩
    · rw [hNT]
    · rw [hNT]
    · rw [hNT]
    · exact rfl
    · show authorView (createThread text author communityId newId now db) newThread.author = _
      have : newThread.author = author := by rw [hNT]
      rw [this, authorView, hfindU]
      rfl
  · intro u hu
    constructor
    · intro h
      rw [husers]
      exact List.mem_map.mpr ⟨u, hu, by simp [h]⟩
    · intro h
      rw [husers]
      exact List.mem_map.mpr ⟨u, hu, by simp [h]⟩
  · cases hfc : db.communities.find? (fun c => decide (some c.eid = communityId)) with
    | none =>
      rw [hcomms, hfc]
    | some cobj =>
      intro c hc
      constructor
      · intro h
        rw [hcomms, hfc]
        exact List.mem_map.mpr ⟨c, hc, by simp [h]⟩
      · intro h
        rw [hcomms, hfc]
        exact List.mem_map.mpr ⟨c, hc, by simp [h]⟩

theorem createThread_correct_witness :
    ((wDB.users.map (fun u => u.id)).Nodup ∧
      wUsers.get ⟨0, by decide⟩ ∈ wDB.users ∧
      (wUsers.get ⟨0, by decide⟩).id = "u1" ∧
      "n5" ∉ wDB.threads.map (fun t => t.id) ∧
      createThread "hello world" "u1" (some "ext1") "n5" 9 wDB
        = createThread "hello world" "u1" (some "ext1") "n5" 9 wDB) ∧
    ((∃ t, t ∈ (createThread "hello world" "u1" (some "ext1") "n5" 9 wDB).threads ∧
        t.id = "n5" ∧ t.text = "hello world" ∧ t.author = "u1" ∧
        t.parentId = none ∧ t.children = []) ∧
      (∃ v, fetchThreadById (createThread "hello world" "u1" (some "ext1") "n5" 9 wDB) "n5"
          = Except.ok (some v) ∧ v.id = "n5" ∧ v.text = "hello world" ∧
        v.parentId = none ∧ v.children = [] ∧
        v.author = some
          { id := (wUsers.get ⟨0, by decide⟩).id,
            name := (wUsers.get ⟨0, by decide⟩).name,
            image := (wUsers.get ⟨0, by decide⟩).image }) ∧
      (∀ u ∈ wDB.users,
        (u.id = "u1" → { u with threads := u.threads ++ ["n5"] }
          ∈ (createThread "hello world" "u1" (some "ext1") "n5" 9 wDB).users) ∧
        (u.id ≠ "u1" → u ∈ (createThread "hello world" "u1" (some "ext1") "n5" 9 wDB).users)) ∧
      (match wDB.communities.find? (fun c => decide (some c.eid = some "ext1")) with
        | some cobj => ∀ c ∈ wDB.communities,
            (c.id = cobj.id → { c with threads := c.threads ++ ["n5"] }
              ∈ (createThread "hello world" "u1" (some "ext1") "n5" 9 wDB).communities) ∧
            (c.id ≠ cobj.id →
              c ∈ (createThread "hello world" "u1" (some "ext1") "n5" 9 wDB).communities)
        | none => (createThread "hello world" "u1" (some "ext1") "n5" 9 wDB).communities
            = wDB.communities)) :=
  ⟨⟨by decide, by decide, by decide, by decide, rfl⟩,
    createThread_correct wDB "hello world" "u1" (some "ext1") "n5" 9
      (wUsers.get ⟨0, by decide⟩) _ (by decide) (by decide) (by decide) (by decide) rfl⟩

/-- **C6**: on a Thread with a reply chain at least three levels deep,
`fetchThreadById` resolves the direct replies and replies-to-replies,
each with its author resolved to an embedded author projection, but
every third-level reply stays unresolved: the level-2 child's
`children` field is returned as the raw id list of the stored thread
(`t3.id` appears there as a plain reference, not an embedded
document). -/
theorem fetchThreadById_two_level_limit
    (db : DB) (t0 t1 t2 t3 : Thread) (a1 a2 : User)
    (hnodupT : (db.threads.map (fun t => t.id)).Nodup)
    (hnodupU : (db.users.map (fun u => u.id)).Nodup)
    (h0 : t0 ∈ db.threads) (h1 : t1 ∈ db.threads) (h2 : t2 ∈ db.threads)
    (hc1 : t1.id ∈ t0.children) (hc2 : t2.id ∈ t1.children) (hc3 : t3.id ∈ t2.children)
    (ha1 : a1 ∈ db.users) (ha1id : a1.id = t1.author)
    (ha2 : a2 ∈ db.users) (ha2id : a2.id = t2.author) :
    ∃ v, fetchThreadById db t0.id = Except.ok (some v) ∧ v.id = t0.id ∧
      ∃ c1, c1 ∈ v.children ∧ c1.id = t1.id ∧
        c1.author = some { id := a1.id, name := a1.name, image := a1.image } ∧
        ∃ c2, c2 ∈ c1.children ∧ c2.id = t2.id ∧
          c2.author = some { id := a2.id, name := a2.name, image := a2.image } ∧
          c2.children = t2.children ∧ t3.id ∈ c2.children := by
  have hfind0 : findThread db.threads t0.id = some t0 := by
    unfold findThread
    exact find?_key_eq_some (fun t : Thread => t.id) hnodupT h0
  have hfind1 : findThread db.threads t1.id = some t1 := by
    unfold findThread
    exact find?_key_eq_some (fun t : Thread => t.id) hnodupT h1
  have hfind2 : findThread db.threads t2.id = some t2 := by
    unfold findThread
    exact find?_key_eq_some (fun t : Thread => t.id) hnodupT h2
  have hfua1 : findUser db.users a1.id = some a1 := by
    unfold findUser
    exact find?_key_eq_some (fun u : User => u.id) hnodupU ha1
  have hfua2 : findUser db.users a2.id = some a2 := by
    unfold findUser
    exact find?_key_eq_some (fun u : User => u.id) hnodupU ha2
  have hau1 : authorView db t1.author
      = some { id := a1.id, name := a1.name, image := a1.image } := by
    rw [authorView, ← ha1id, hfua1]
    rfl
  have hau2 : authorView db t2.author
      = some { id := a2.id, name := a2.name, image := a2.image } := by
    rw [authorView, ← ha2id, hfua2]
    rfl
  have hcd1 : childDepth1 db t2.id = some
      { id := t2.id, text := t2.text, author := authorView db t2.author,
        community := t2.community, createdAt := t2.createdAt,
        parentId := t2.parentId, children := t2.children } := by
    rw [childDepth1, hfind2]
    rfl
  have hcd2 : childDepth2 db t1.id = some
      { id := t1.id, text := t1.text, author := authorView db t1.author,
        community := t1.community, createdAt := t1.createdAt,
        parentId := t1.parentId,
        children := t1.children.filterMap (childDepth1 db) } := by
    rw [childDepth2, hfind1]
    rfl
  refine ⟨_, by rw [fetchThreadById, hfind0]; rfl, rfl, ?_⟩
  refine ⟨_, List.mem_filterMap.mpr ⟨t1.id, hc1, hcd2⟩, rfl, hau1, ?_⟩
  exact ⟨_, List.mem_filterMap.mpr ⟨t2.id, hc2, hcd1⟩, rfl, hau2, rfl, hc3⟩

theorem fetchThreadById_two_level_limit_witness :
    ((wDB.threads.map (fun t => t.id)).Nodup ∧ (wDB.users.map (fun u => u.id)).Nodup ∧
      wThreads.get ⟨0, by decide⟩ ∈ wDB.threads ∧
      wThreads.get ⟨1, by decide⟩ ∈ wDB.threads ∧
      wThreads.get ⟨2, by decide⟩ ∈ wDB.threads ∧
      (wThreads.get ⟨1, by decide⟩).id ∈ (wThreads.get ⟨0, by decide⟩).children ∧
      (wThreads.get ⟨2, by decide⟩).id ∈ (wThreads.get ⟨1, by decide⟩).children ∧
      (wThreads.get ⟨4, by decide⟩).id ∈ (wThreads.get ⟨2, by decide⟩).children ∧
      wUsers.get ⟨0, by decide⟩ ∈ wDB.users ∧
      (wUsers.get ⟨0, by decide⟩).id = (wThreads.get ⟨1, by decide⟩).author ∧
      wUsers.get ⟨1, by decide⟩ ∈ wDB.users ∧
      (wUsers.get ⟨1, by decide⟩).id = (wThreads.get ⟨2, by decide⟩).author) ∧
    (∃ v, fetchThreadById wDB (wThreads.get ⟨0, by decide⟩).id = Except.ok (some v) ∧
      v.id = (wThreads.get ⟨0, by decide⟩).id ∧
      ∃ c1, c1 ∈ v.children ∧ c1.id = (wThreads.get ⟨1, by decide⟩).id ∧
        c1.author = some
          { id := (wUsers.get ⟨0, by decide⟩).id,
            name := (wUsers.get ⟨0, by decide⟩).name,
            image := (wUsers.get ⟨0, by decide⟩).image } ∧
        ∃ c2, c2 ∈ c1.children ∧ c2.id = (wThreads.get ⟨2, by decide⟩).id ∧
          c2.author = some
            { id := (wUsers.get ⟨1, by decide⟩).id,
              name := (wUsers.get ⟨1, by decide⟩).name,
              image := (wUsers.get ⟨1, by decide⟩).image } ∧
          c2.children = (wThreads.get ⟨2, by decide⟩).children ∧
          (wThreads.get ⟨4, by decide⟩).id ∈ c2.children) :=
  ⟨⟨by decide, by decide, by decide, by decide, by decide, by decide, by decide, by decide,
      by decide, by decide, by decide, by decide⟩,
    fetchThreadById_two_level_limit wDB
      (wThreads.get ⟨0, by decide⟩) (wThreads.get ⟨1, by decide⟩)
      (wThreads.get ⟨2, by decide⟩) (wThreads.get ⟨4, by decide⟩)
      (wUsers.get ⟨0, by decide⟩) (wUsers.get ⟨1, by decide⟩)
      (by decide) (by decide) (by decide) (by decide) (by decide) (by decide) (by decide)
      (by decide) (by decide) (by decide) (by decide) (by decide)⟩

theorem insertCreatedAtDesc_perm (t : Thread) (l : List Thread) :
    List.Perm (insertCreatedAtDesc t l) (t :: l) := by
  induction l with
  | nil => exact List.Perm.refl _
  | cons u us ih =>
    rw [insertCreatedAtDesc]
    by_cases h : t.createdAt ≤ u.createdAt
    · rw [if_pos h]
      exact (ih.cons u).trans (List.Perm.swap t u us)
    · rw [if_neg h]

theorem sortCreatedAtDesc_perm (ts : List Thread) :
    List.Perm (sortCreatedAtDesc ts) ts := by
  induction ts with
  | nil => exact List.Perm.refl _
  | cons t ts ih =>
    exact (insertCreatedAtDesc_perm t (sortCreatedAtDesc ts)).trans (ih.cons t)

theorem insertCreatedAtDesc_sorted (t : Thread) (l : List Thread)
    (hs : l.Pairwise (fun a b => b.createdAt ≤ a.createdAt)) :
    (insertCreatedAtDesc t l).Pairwise (fun a b => b.createdAt ≤ a.createdAt) := by
  induction l with
  | nil => simp [insertCreatedAtDesc]
  | cons u us ih =>
    rw [List.pairwise_cons] at hs
    rw [insertCreatedAtDesc]
    by_cases h : t.createdAt ≤ u.createdAt
    · rw [if_pos h, List.pairwise_cons]
      constructor
      · intro b hb
        rcases List.mem_cons.mp ((insertCreatedAtDesc_perm t us).mem_iff.mp hb) with rfl | hbus
        · exact h
        · exact hs.1 b hbus
      · exact ih hs.2
    · rw [if_neg h, List.pairwise_cons]
      constructor
      · intro b hb
        rcases List.mem_cons.mp hb with rfl | hbus
        · omega
        · have := hs.1 b hbus
          omega
      · exact List.pairwise_cons.mpr hs

theorem sortCreatedAtDesc_sorted (ts : List Thread) :
    (sortCreatedAtDesc ts).Pairwise (fun a b => b.createdAt ≤ a.createdAt) := by
  induction ts with
  | nil => simp [sortCreatedAtDesc]
  | cons t ts ih => exact insertCreatedAtDesc_sorted t _ ih

/-- **C7**: for every page ≥ 1 and pageSize > 0, `fetchPosts` returns
the page-th window (offset `(page-1)*pageSize`, at most `pageSize`
items) of the top-level threads (absent `parentId`) arranged by
`createdAt` descending (the arrangement is a permutation of the
top-level threads, sorted descending), and `hasNext` is true iff
strictly more top-level threads exist beyond that window; in
particular, with exactly 25 top-level posts, page 2 of size 10 returns
posts 11–20 with `hasNext = true` and page 3 returns posts 21–25 with
`hasNext = false`. -/
theorem fetchPosts_pagination
    (page pageSize : Nat) (db : DB) (_hpage : 1 ≤ page) (_hsize : 0 < pageSize) :
    ((fetchPosts page pageSize db).1.map (fun p => p.id)
        = (((sortCreatedAtDesc (db.threads.filter (fun t => decide (t.parentId = none)))).drop
            ((page - 1) * pageSize)).take pageSize).map (fun t => t.id) ∧
      List.Perm (sortCreatedAtDesc (db.threads.filter (fun t => decide (t.parentId = none))))
        (db.threads.filter (fun t => decide (t.parentId = none))) ∧
      (sortCreatedAtDesc (db.threads.filter (fun t => decide (t.parentId = none)))).Pairwise
        (fun a b => b.createdAt ≤ a.createdAt) ∧
      ((fetchPosts page pageSize db).2 = true ↔
        (page - 1) * pageSize + pageSize
          < (db.threads.filter (fun t => decide (t.parentId = none))).length)) ∧
    ((fetchPosts 2 10 feedDB).1.map (fun p => p.id)
        = ["p11", "p12", "p13", "p14", "p15", "p16", "p17", "p18", "p19", "p20"] ∧
      (fetchPosts 2 10 feedDB).2 = true ∧
      (fetchPosts 3 10 feedDB).1.map (fun p => p.id)
        = ["p21", "p22", "p23", "p24", "p25"] ∧
      (fetchPosts 3 10 feedDB).2 = false) := by
  refine ⟨⟨?_, sortCreatedAtDesc_perm _, sortCreatedAtDesc_sorted _, ?_⟩,
    by decide, by decide, by decide, by decide⟩
  · have hfst : (fetchPosts page pageSize db).1
        = (((sortCreatedAtDesc (db.threads.filter (fun t => decide (t.parentId = none)))).drop
            ((page - 1) * pageSize)).take pageSize).map (fun t =>
              ({ id := t.id, text := t.text, author := findUser db.users t.author,
                 community := t.community.bind (findCommunity db.communities),
                 createdAt := t.createdAt, parentId := t.parentId,
                 children := t.children.filterMap (childDepth1 db) } : PostView)) := rfl
    rw [hfst, List.map_map]
    rfl
  · have hsnd : (fetchPosts page pageSize db).2
        = decide ((db.threads.filter (fun t => decide (t.parentId = none))).length
            > (page - 1) * pageSize
              + (((sortCreatedAtDesc (db.threads.filter
                    (fun t => decide (t.parentId = none)))).drop
                  ((page - 1) * pageSize)).take pageSize).length) := rfl
    rw [hsnd, decide_eq_true_eq, List.length_take, List.length_drop,
      (sortCreatedAtDesc_perm _).length_eq]
    omega

theorem fetchPosts_pagination_witness :
    (1 ≤ 2 ∧ 0 < 10) ∧
    ((fetchPosts 2 10 feedDB).2 = true ↔
      (2 - 1) * 10 + 10
        < (feedDB.threads.filter (fun t => decide (t.parentId = none))).length) :=
  ⟨⟨by decide, by decide⟩,
    (fetchPosts_pagination 2 10 feedDB (by decide) (by decide)).1.2.2.2⟩

/-- **C3 (amended)**: for every Thread id that does not exist in the
store, `fetchThreadById` returns successfully with `null` — there is
no not-found check, so it does not fail; an underlying store failure
is caught and re-signalled as the fixed message
`Unable to fetch thread`, which does not wrap the cause. -/
theorem fetchThreadById_missing_and_failure
    (db : DB) (tid : String) (hmiss : tid ∉ db.threads.map (fun t => t.id)) :
    fetchThreadById db tid = Except.ok none ∧
    (∀ msg, fetchThreadByIdWithFailingStore msg
      = Except.error "Unable to fetch thread") := by
  constructor
  · have hfind : findThread db.threads tid = none := by
      unfold findThread
      refine List.find?_eq_none.mpr ?_
      intro t ht
      simp only [decide_eq_true_eq]
      exact fun e => hmiss (e ▸ List.mem_map.mpr ⟨t, ht, rfl⟩)
    rw [fetchThreadById, hfind]
    rfl
  · intro msg
    rfl

theorem fetchThreadById_missing_witness :
    ("nosuch" ∉ wDB.threads.map (fun t => t.id)) ∧
    (fetchThreadById wDB "nosuch" = Except.ok none ∧
     (∀ msg, fetchThreadByIdWithFailingStore msg
       = Except.error "Unable to fetch thread")) :=
  ⟨by decide, fetchThreadById_missing_and_failure wDB "nosuch" (by decide)⟩

/-- **C3 counterexample**: on a store without the id `nosuch`,
`fetchThreadById` returns `Except.ok none` — a success carrying
`null`, never an error — contradicting "fails with a NotFound error
rather than returning successfully"; and on a store failure the
re-signalled message is the fixed `Unable to fetch thread`, not a
FetchError wrapping the cause `socket hang up`. -/
theorem fetchThreadById_counterexample :
    fetchThreadById wDB "nosuch" = Except.ok none ∧
    (∀ e, fetchThreadById wDB "nosuch" ≠ Except.error e) ∧
    fetchThreadByIdWithFailingStore "socket hang up"
      = Except.error "Unable to fetch thread" ∧
    "Unable to fetch thread" ≠ "socket hang up" := by
  have h1 : fetchThreadById wDB "nosuch" = Except.ok none := rfl
  refine ⟨h1, ?_, rfl, by decide⟩
  intro e he
  rw [h1] at he
  exact Except.noConfusion he

/-- **C4 (amended)**: the operations do not share one wrapping
discipline.  `createThread` and `deleteThread` catch underlying store
failures and re-signal an operation-specific error whose message
carries the original cause message; `fetchThreadById` and
`addCommentToThread` catch but re-signal fixed messages that drop the
cause; `fetchPosts` has no try/catch at all, so the underlying failure
propagates to its caller unchanged. -/
theorem storeFailure_wrapping (msg : String) :
    createThreadWithFailingStore msg = Except.error ("Failed to create post: " ++ msg) ∧
    deleteThreadWithFailingStore msg = Except.error ("Failed to delete thread: " ++ msg) ∧
    fetchThreadByIdWithFailingStore msg = Except.error "Unable to fetch thread" ∧
    addCommentWithFailingStore msg = Except.error "Unable to add comment" ∧
    fetchPostsWithFailingStore msg = Except.error msg :=
  ⟨rfl, rfl, rfl, rfl, rfl⟩

/-- **C4 counterexample**: a store failure with cause `ECONNRESET`
escapes `fetchPosts` unwrapped (the caller receives the bare cause, no
operation-specific wrapper), and the wrapped errors of
`fetchThreadById` and `addCommentToThread` drop the cause message
entirely — refuting "every public operation re-signals a wrapped,
operation-specific error whose message carries the original cause's
message; no underlying failure propagates unwrapped and no cause
message is dropped". -/
theorem storeFailure_wrapping_counterexample :
    fetchPostsWithFailingStore "ECONNRESET" = Except.error "ECONNRESET" ∧
    fetchThreadByIdWithFailingStore "ECONNRESET"
      = Except.error "Unable to fetch thread" ∧
    addCommentWithFailingStore "ECONNRESET" = Except.error "Unable to add comment" ∧
    "Unable to fetch thread" ≠ "ECONNRESET" ∧
    "Unable to add comment" ≠ "ECONNRESET" :=
  ⟨rfl, rfl, rfl, by decide, by decide⟩

end Roar
